import Mathlib

/-!
# Verification of the near-duplicate detection and clustering engine

Shallow embedding of `src/clustering/simhash.ts`, `src/clustering/similarity.ts`
and `src/clustering/grouper.ts` (the SimHash fingerprinting, Hamming-distance
comparison and greedy article grouping engine of `news-db-pure-analysis`),
together with proofs of the specified properties.

Modelling conventions:
* JavaScript strings are modelled as Lean `String`s; where the source iterates
  over UTF-16 code units (`charCodeAt`), the embedding expands each character
  into its UTF-16 code units explicitly (`utf16Units`).
* JavaScript `number`/`bigint` arithmetic on non-negative integers is modelled
  with `Nat`, with explicit `% 2 ^ 64` / masking where the source masks;
  the one fractional quantity (`averageDistance`) is modelled with `Rat`.
* Functions that can throw (`calculateHammingDistance`, `BigInt('0x' + s)`)
  return `Option`, `none` being the thrown exception.
* `publishedAt` (a string or `Date` in the source, used only through
  `new Date(x).getTime()`) is modelled as its epoch-milliseconds value, an `Int`.
-/

/-! ## JavaScript primitives -/

/-- The characters JavaScript treats as whitespace (`StrWhiteSpace` /
regex `\s`): tab, LF, VT, FF, CR, space, NBSP, and the Unicode space
separators plus ZWNBSP. -/
def jsIsWhitespace (c : Char) : Bool :=
  decide (c = ' ' ∨ c = '\t' ∨ c = '\n' ∨ c = '\u000b' ∨ c = '\u000c' ∨ c = '\r' ∨
    c = '\u00a0' ∨ c = '\u1680' ∨ ('\u2000' ≤ c ∧ c ≤ '\u200a') ∨
    c = '\u2028' ∨ c = '\u2029' ∨ c = '\u202f' ∨ c = '\u205f' ∨
    c = '\u3000' ∨ c = '\ufeff')

/-- Regex `\w`: ASCII letters, digits and underscore. -/
def jsIsWordChar (c : Char) : Bool :=
  decide (('a' ≤ c ∧ c ≤ 'z') ∨ ('A' ≤ c ∧ c ≤ 'Z') ∨ ('0' ≤ c ∧ c ≤ '9') ∨ c = '_')

/-- Hexadecimal digit (either case), as accepted by `parseInt(s, 16)` and
`BigInt('0x' + s)`. -/
def isHexChar (c : Char) : Bool :=
  decide (('0' ≤ c ∧ c ≤ '9') ∨ ('a' ≤ c ∧ c ≤ 'f') ∨ ('A' ≤ c ∧ c ≤ 'F'))

/-- Value of a hexadecimal digit. -/
def hexDigitVal (c : Char) : Nat :=
  if '0' ≤ c ∧ c ≤ '9' then c.toNat - '0'.toNat
  else if 'a' ≤ c ∧ c ≤ 'f' then c.toNat - 'a'.toNat + 10
  else if 'A' ≤ c ∧ c ≤ 'F' then c.toNat - 'A'.toNat + 10
  else 0

/-- Value of a list of hexadecimal digits, most significant first. -/
def hexValList (cs : List Char) : Nat :=
  cs.foldl (fun acc c => acc * 16 + hexDigitVal c) 0

/-- Numeric value of a hexadecimal string, most significant digit first. -/
def hexVal (s : String) : Nat :=
  hexValList s.data

/-- The UTF-16 code units of a character, as enumerated by
`String.prototype.charCodeAt`: one unit for the Basic Multilingual Plane,
a surrogate pair for characters at or above `U+10000`. -/
def utf16Units (c : Char) : List Nat :=
  if c.toNat < 0x10000 then [c.toNat]
  else [0xd800 + (c.toNat - 0x10000) / 0x400, 0xdc00 + (c.toNat - 0x10000) % 0x400]

/-- The UTF-16 code units of a string, in order. -/
def utf16Codes (s : String) : List Nat :=
  s.data.foldr (fun c acc => utf16Units c ++ acc) []

/-- Number of set bits of a natural number (the `while (xor > 0)` popcount
loops of `hammingDistance` and `calculateHammingDistance`). -/
def countBits (x : Nat) : Nat :=
  if h : x = 0 then 0
  else x % 2 + countBits (x / 2)
decreasing_by exact Nat.div_lt_self (Nat.pos_of_ne_zero h) one_lt_two

/-- The sixteen lowercase hexadecimal digit characters, as produced by
`BigInt.prototype.toString(16)`. -/
def hexDigitChar (n : Nat) : Char :=
  if n = 0 then '0' else if n = 1 then '1' else if n = 2 then '2'
  else if n = 3 then '3' else if n = 4 then '4' else if n = 5 then '5'
  else if n = 6 then '6' else if n = 7 then '7' else if n = 8 then '8'
  else if n = 9 then '9' else if n = 10 then 'a' else if n = 11 then 'b'
  else if n = 12 then 'c' else if n = 13 then 'd' else if n = 14 then 'e'
  else 'f'

/-- Hex digits of `n`, most significant first, for positive `n`
(helper for `natToHex`). -/
def natToHexAux (n : Nat) : List Char :=
  if n = 0 then []
  else natToHexAux (n / 16) ++ [hexDigitChar (n % 16)]
decreasing_by exact Nat.div_lt_self (Nat.pos_of_ne_zero (by assumption)) (by norm_num)

/-- Embeds `n.toString(16)`: minimal-length lowercase hexadecimal rendering. -/
def natToHex (n : Nat) : String :=
  if n = 0 then "0" else String.mk (natToHexAux n)

/-- Embeds `s.padStart(16, '0')`. -/
def padStart16 (s : String) : String :=
  String.mk (List.replicate (16 - s.length) '0' ++ s.data)

/-! ## `src/clustering/simhash.ts` -/

/-- FNV-1a 64-bit offset basis. -/
def FNV_OFFSET_BASIS : Nat := 14695981039346656037

/-- FNV-1a 64-bit prime. -/
def FNV_PRIME : Nat := 1099511628211

/-- Embeds `(1n << 64n) - 1n`. -/
def MASK_64 : Nat := 2 ^ 64 - 1

/-- One step of the FNV-1a loop body:
`hash ^= code; hash = (hash * FNV_PRIME) & MASK_64`. -/
def fnv1a64Step (hash code : Nat) : Nat :=
  ((hash ^^^ code) * FNV_PRIME) &&& MASK_64

/-- Embeds `fnv1a64(str)`: FNV-1a 64-bit hash, folding the loop body over the
UTF-16 code units of the string (`str.charCodeAt(i)` for `i < str.length`). -/
def fnv1a64 (str : String) : Nat :=
  (utf16Codes str).foldl fnv1a64Step FNV_OFFSET_BASIS

/-- Splits a character list at every separator character, keeping empty
pieces between adjacent separators (the behaviour of splitting on a
one-character-matching pattern; the empties are immaterial once short
tokens are filtered). -/
def splitOnSep (p : Char → Bool) : List Char → List (List Char)
  | [] => [[]]
  | c :: rest =>
    if p c then [] :: splitOnSep p rest
    else
      match splitOnSep p rest with
      | [] => [[c]]
      | w :: ws => (c :: w) :: ws

/-- Embeds `tokenize(text, minLength = 2)`:
`text.toLowerCase().replace(/[^\w\s]/g, ' ').split(/\s+/).filter(w => w.length >= minLength)`.
Non-word, non-whitespace characters are replaced by spaces, so splitting on
whitespace yields the maximal word-character runs. -/
def tokenize (text : String) (minLength : Nat := 2) : List String :=
  let cleaned := text.data.map
    (fun c => let lc := c.toLower; if jsIsWordChar lc ∨ jsIsWhitespace lc then lc else ' ')
  ((splitOnSep jsIsWhitespace cleaned).map String.mk).filter
    (fun w => minLength ≤ w.length)

/-- One step of the accumulator update of `computeSimHash`: for each bit
position `i < 64`, add `+1` if bit `i` of `hash` is `1`, else `-1`
(`vector[i] += bit === 1 ? 1 : -1`). The 64-element array is modelled as a
function from positions to values. -/
def updateVector (v : Nat → Int) (hash : Nat) : Nat → Int :=
  fun i => if i < 64 then v i + (if (hash >>> i) &&& 1 = 1 then 1 else -1) else v i

/-- The accumulator after processing every token. -/
def computeVector (tokens : List String) : Nat → Int :=
  tokens.foldl (fun v t => updateVector v (fnv1a64 t)) (fun _ => 0)

/-- Embeds `fingerprint |= 1n << BigInt(i)` for every position with positive
accumulated value. -/
def fingerprintOfVector (v : Nat → Int) : Nat :=
  (List.range 64).foldl (fun f i => if 0 < v i then f ||| (1 <<< i) else f) 0

/-- Embeds `computeSimHash(text)`: tokenize, return the all-zero sentinel on an
empty token list, otherwise accumulate bit votes and encode the collapsed
64-bit fingerprint as `fingerprint.toString(16).padStart(16, '0')`. -/
def computeSimHash (text : String) : String :=
  let tokens := tokenize text
  if tokens.length = 0 then "0000000000000000"
  else padStart16 (natToHex (fingerprintOfVector (computeVector tokens)))

/-- Embeds `BigInt('0x' + s)`: parses a hexadecimal numeral; trailing whitespace of
`s` is trimmed (string-to-bigint conversion trims both ends of `'0x' + s`,
and the prepended `'0'` blocks leading trimming inside `s`); throws
(`none`) unless at least one hex digit remains and nothing else. -/
def parseBigIntHex (s : String) : Option Nat :=
  let t := (s.data.reverse.dropWhile jsIsWhitespace).reverse
  if t ≠ [] ∧ t.all isHexChar then some (hexValList t) else none

/-- Embeds `hammingDistance(a, b)` (fast path): XOR of the two values parsed by
`BigInt('0x' + ·)` and popcount of the result; `none` models the
`SyntaxError` thrown on a non-hexadecimal input. -/
def hammingDistance (a b : String) : Option Nat := do
  let valA ← parseBigIntHex a
  let valB ← parseBigIntHex b
  pure (countBits (valA ^^^ valB))

/-- Result type of `getMatchType`. -/
inductive MatchType where
  | exact
  | near
  | similar
  | different
deriving DecidableEq, Repr

/-- Embeds `getMatchType(distance)`. -/
def getMatchType (distance : Nat) : MatchType :=
  if distance = 0 then .exact
  else if distance ≤ 3 then .near
  else if distance ≤ 10 then .similar
  else .different

/-! ## `src/clustering/similarity.ts` -/

/-- Embeds `parseInt(s, 16)`: skip leading whitespace, read an optional sign, strip
an optional `0x`/`0X` prefix, then take the longest run of hexadecimal
digits; `none` models `NaN` (no digits). -/
def jsParseIntHex (s : String) : Option Int :=
  let t := s.data.dropWhile jsIsWhitespace
  let sign : Int := if t.head? = some '-' then -1 else 1
  let rest := if t.head? = some '-' ∨ t.head? = some '+' then t.tail else t
  let rest2 := if rest.take 2 = ['0', 'x'] ∨ rest.take 2 = ['0', 'X'] then rest.drop 2 else rest
  let digits := rest2.takeWhile isHexChar
  if digits = [] then none else some (sign * (hexValList digits : Int))

/-- Embeds the `ToUint32`-style bit pattern of a JavaScript number entering `^`:
`ToInt32(NaN) = 0`, and an integer is reduced mod `2 ^ 32` (the two's
complement pattern of the resulting 32-bit value). -/
def jsToUint32 (x : Option Int) : Nat :=
  match x with
  | none => 0
  | some v => (v.emod (2 ^ 32)).toNat

/-- Embeds `s.substring(i, i + 4)` (indices clamped to the string length). -/
def substr4 (s : String) (i : Nat) : String :=
  String.mk ((s.data.drop i).take 4)

/-- One iteration of the chunk loop of `calculateHammingDistance`: parse the
4-hex-character chunks at offset `i`, XOR them as 32-bit integers, and count
set bits with the `while (xor > 0)` loop (which runs zero times when the
signed 32-bit value is non-positive). -/
def chunkTerm (hashA hashB : String) (i : Nat) : Nat :=
  let valA := jsToUint32 (jsParseIntHex (substr4 hashA i))
  let valB := jsToUint32 (jsParseIntHex (substr4 hashB i))
  let x := valA ^^^ valB
  if 2 ^ 31 ≤ x then 0 else countBits x

/-- The chunked Hamming-distance computation of `calculateHammingDistance`
(the `for (let i = 0; i < 16; i += 4)` loop). -/
def hammingDistanceChunks (hashA hashB : String) : Nat :=
  ([0, 4, 8, 12].map (chunkTerm hashA hashB)).sum

/-- Embeds `calculateHammingDistance(hashA, hashB)`: throws (`none`) unless both
inputs have length exactly 16, then sums the per-chunk bit differences. -/
def calculateHammingDistance (hashA hashB : String) : Option Nat :=
  if hashA.length ≠ 16 ∨ hashB.length ≠ 16 then none
  else some (hammingDistanceChunks hashA hashB)

/-- A well-formed fingerprint: exactly 16 hexadecimal characters. -/
def isHex16 (s : String) : Bool :=
  s.length = 16 && s.data.all isHexChar

/-! ## `src/clustering/grouper.ts` (and `src/types.ts`) -/

/-- Embeds `ArticleInput` from `src/types.ts`; `publishedAt` is modelled as the
epoch-milliseconds value `new Date(x).getTime()` that the grouper sorts by. -/
structure ArticleInput where
  id : String
  content : Option String := none
  headline : String
  simHash : String
  publishedAt : Int
  sourceDomain : String
deriving DecidableEq, Repr

/-- Embeds `ArticleGroup` from `src/clustering/grouper.ts`. -/
structure ArticleGroup where
  id : String
  centerArticleId : String
  memberIds : List String
  averageDistance : Rat
deriving DecidableEq, Repr

/-- Embeds `[...articles].sort((a, b) => new Date(b.publishedAt).getTime() - new Date(a.publishedAt).getTime())`:
the stable descending sort by publication time (JavaScript `Array.prototype.sort`
is stable, so it produces the unique stable sorted permutation). -/
def sortByPublishedDesc (articles : List ArticleInput) : List ArticleInput :=
  articles.mergeSort (fun a b => decide (b.publishedAt ≤ a.publishedAt))

/-- The inner candidate scan of `groupArticlesBySimilarity`: walk the sorted
list, skip the center and already-assigned articles, and for each remaining
candidate compute the (validated) Hamming distance to the center, adding the
candidate to the group when within threshold. Returns the final
`(memberIds, assigned, totalDistance)`; `none` propagates a thrown format
error. -/
def scanCandidates (center : ArticleInput) (threshold : Nat) :
    List ArticleInput → List String → List String → Nat →
    Option (List String × List String × Nat)
  | [], memberIds, assigned, total => some (memberIds, assigned, total)
  | candidate :: rest, memberIds, assigned, total =>
    if candidate.id = center.id ∨ candidate.id ∈ assigned then
      scanCandidates center threshold rest memberIds assigned total
    else
      match calculateHammingDistance center.simHash candidate.simHash with
      | none => none
      | some distance =>
        if distance ≤ threshold then
          scanCandidates center threshold rest (memberIds ++ [candidate.id])
            (candidate.id :: assigned) (total + distance)
        else
          scanCandidates center threshold rest memberIds assigned total

/-- The outer loop of `groupArticlesBySimilarity`: iterate the sorted list,
skip assigned articles, and open a new group around each unassigned article,
scanning the whole sorted list for members. -/
def buildGroups (sorted : List ArticleInput) (threshold : Nat) :
    List ArticleInput → List String → List ArticleGroup →
    Option (List ArticleGroup)
  | [], _, groups => some groups
  | article :: rest, assigned, groups =>
    if article.id ∈ assigned then
      buildGroups sorted threshold rest assigned groups
    else
      match scanCandidates article threshold sorted [article.id] assigned 0 with
      | none => none
      | some (memberIds, assigned', totalDistance) =>
        let averageDistance : Rat :=
          if 1 < memberIds.length then
            (totalDistance : Rat) / ((memberIds.length - 1 : Nat) : Rat)
          else 0
        let group : ArticleGroup :=
          { id := "cluster-" ++ Nat.repr (groups.length + 1)
            centerArticleId := article.id
            memberIds := memberIds
            averageDistance := averageDistance }
        buildGroups sorted threshold rest (article.id :: assigned')
          (groups ++ [group])

/-- Embeds `groupArticlesBySimilarity(articles, threshold = 3)`. -/
def groupArticlesBySimilarity (articles : List ArticleInput)
    (threshold : Nat := 3) : Option (List ArticleGroup) :=
  if articles.length = 0 then some []
  else
    let sorted := sortByPublishedDesc articles
    buildGroups sorted threshold sorted [] []

/-! ## Statement-side definitions -/

/-- The output alphabet of `toString(16)`: lowercase hexadecimal digits. -/
def isLowerHexChar (c : Char) : Bool :=
  decide (('0' ≤ c ∧ c ≤ '9') ∨ ('a' ≤ c ∧ c ≤ 'f'))

/-- The specification's bit vote for position `i`: the sum over the tokens of
`+1` when bit `i` of the token's hash is `1`, else `-1` (used to state the
collapse rule of the fingerprint generator). -/
def specBitWeight (tokens : List String) (i : Nat) : Int :=
  (tokens.map (fun t => if (fnv1a64 t).testBit i then (1 : Int) else -1)).sum

/-- The specification's reading of the hash primitive, which processes "each
character as its numeric code point" — by contrast the source iterates UTF-16
code units; the two differ on supplementary-plane characters. -/
def fnv1a64CodePoints (str : String) : Nat :=
  str.data.foldl (fun h c => fnv1a64Step h c.toNat) FNV_OFFSET_BASIS

/-- First article with the given id, if any. -/
def findById (articles : List ArticleInput) (i : String) : Option ArticleInput :=
  articles.find? (fun a => decide (a.id = i))

/-- The distance from the center recorded for a non-center member id, as the
specification describes the average: the (chunked) Hamming distance between
the center's fingerprint and the member's fingerprint, looked up by id. -/
def memberDistance (articles : List ArticleInput) (center : ArticleInput)
    (mid : String) : Rat :=
  match findById articles mid with
  | some m => (hammingDistanceChunks center.simHash m.simHash : Rat)
  | none => 0

/-- The specified shape of one cluster of a batch: the center is a batch
article heading the member list, every member id resolves in the batch, a
singleton cluster reports average distance `0`, and otherwise
`averageDistance` is the arithmetic mean of the non-center members'
distances to the center. -/
def groupAvgSpec (articles : List ArticleInput) (g : ArticleGroup) : Prop :=
  ∃ c, findById articles g.centerArticleId = some c ∧
    g.memberIds.head? = some g.centerArticleId ∧
    (g.memberIds.tail = [] → g.averageDistance = 0) ∧
    (∀ mid ∈ g.memberIds.tail, (findById articles mid).isSome = true) ∧
    (g.memberIds.tail ≠ [] →
      g.averageDistance =
        (g.memberIds.tail.map (memberDistance articles c)).sum /
          (g.memberIds.tail.length : Rat))

/-! ## Character classification lemmas -/

/-- The `Char` order coincides with the order of the numeric code points. -/
theorem charLe_iff {a b : Char} : a ≤ b ↔ a.toNat ≤ b.toNat := Iff.rfl

/-- The `Char` equality coincides with equality of the numeric code points. -/
theorem charEq_iff {a b : Char} : a = b ↔ a.toNat = b.toNat :=
  ⟨fun h => h ▸ rfl, fun h => Char.ext (UInt32.eq_of_toBitVec_eq (BitVec.eq_of_toNat_eq h))⟩

theorem isHexChar_iff {c : Char} : isHexChar c = true ↔
    (48 ≤ c.toNat ∧ c.toNat ≤ 57) ∨ (97 ≤ c.toNat ∧ c.toNat ≤ 102) ∨
    (65 ≤ c.toNat ∧ c.toNat ≤ 70) := by
  simp only [isHexChar, decide_eq_true_eq, charLe_iff, charEq_iff]
  exact Iff.rfl

theorem isLowerHexChar_iff {c : Char} : isLowerHexChar c = true ↔
    (48 ≤ c.toNat ∧ c.toNat ≤ 57) ∨ (97 ≤ c.toNat ∧ c.toNat ≤ 102) := by
  simp only [isLowerHexChar, decide_eq_true_eq, charLe_iff, charEq_iff]
  exact Iff.rfl

theorem jsIsWhitespace_iff {c : Char} : jsIsWhitespace c = true ↔
    c.toNat = 32 ∨ c.toNat = 9 ∨ c.toNat = 10 ∨ c.toNat = 11 ∨ c.toNat = 12 ∨
    c.toNat = 13 ∨ c.toNat = 160 ∨ c.toNat = 5760 ∨
    (8192 ≤ c.toNat ∧ c.toNat ≤ 8202) ∨ c.toNat = 8232 ∨ c.toNat = 8233 ∨
    c.toNat = 8239 ∨ c.toNat = 8287 ∨ c.toNat = 12288 ∨ c.toNat = 65279 := by
  simp only [jsIsWhitespace, decide_eq_true_eq, charLe_iff, charEq_iff]
  exact Iff.rfl

theorem jsIsWordChar_iff {c : Char} : jsIsWordChar c = true ↔
    (97 ≤ c.toNat ∧ c.toNat ≤ 122) ∨ (65 ≤ c.toNat ∧ c.toNat ≤ 90) ∨
    (48 ≤ c.toNat ∧ c.toNat ≤ 57) ∨ c.toNat = 95 := by
  simp only [jsIsWordChar, decide_eq_true_eq, charLe_iff, charEq_iff]
  exact Iff.rfl

/-- A hexadecimal digit is not JavaScript whitespace. -/
theorem isHexChar_not_ws {c : Char} (h : isHexChar c = true) :
    jsIsWhitespace c = false := by
  cases hb : jsIsWhitespace c
  · rfl
  · rw [jsIsWhitespace_iff] at hb
    rw [isHexChar_iff] at h
    omega

/-- A hexadecimal digit is neither a sign character nor `x`/`X`. -/
theorem isHexChar_ne_signs {c : Char} (h : isHexChar c = true) :
    c ≠ '-' ∧ c ≠ '+' ∧ c ≠ 'x' ∧ c ≠ 'X' := by
  refine ⟨?_, ?_, ?_, ?_⟩ <;> (intro heq; subst heq; revert h; decide)

theorem hexDigitVal_lt (c : Char) : hexDigitVal c < 16 := by
  unfold hexDigitVal
  split_ifs with h1 h2 h3 <;>
    [skip; skip; skip; omega] <;>
    (simp only [charLe_iff] at *; simp at *; omega)

/-! ## `countBits` lemmas -/

theorem countBits_zero : countBits 0 = 0 := by simp [countBits]

theorem countBits_unfold (x : Nat) : countBits x = x % 2 + countBits (x / 2) := by
  by_cases h : x = 0
  · subst h; simp [countBits]
  · rw [countBits]; simp [h]

theorem countBits_le {n : Nat} : ∀ {x : Nat}, x < 2 ^ n → countBits x ≤ n := by
  induction n with
  | zero =>
    intro x hx
    interval_cases x
    simp [countBits_zero]
  | succ n ih =>
    intro x hx
    rcases Nat.eq_zero_or_pos x with h0 | h0
    · subst h0; simp [countBits_zero]
    · rw [countBits_unfold]
      have hdiv : x / 2 < 2 ^ n := by
        apply Nat.div_lt_of_lt_mul
        rw [Nat.pow_succ] at hx
        omega
      have := ih hdiv
      omega

/-- Popcount splits across a shifted sum when the low part fits below the
shift. -/
theorem countBits_add_mul_two_pow {k : Nat} :
    ∀ {x : Nat} (y : Nat), x < 2 ^ k →
      countBits (x + 2 ^ k * y) = countBits x + countBits y := by
  induction k with
  | zero =>
    intro x y hx
    interval_cases x
    simp [countBits_zero]
  | succ k ih =>
    intro x y hx
    have hrw : x + 2 ^ (k + 1) * y = x + (2 ^ k * y) * 2 := by ring
    have hmod : (x + (2 ^ k * y) * 2) % 2 = x % 2 := Nat.add_mul_mod_self_right ..
    have hdivhalf : (x + (2 ^ k * y) * 2) / 2 = x / 2 + 2 ^ k * y :=
      Nat.add_mul_div_right _ _ (by norm_num)
    have hxdiv : x / 2 < 2 ^ k := by
      apply Nat.div_lt_of_lt_mul
      rw [Nat.pow_succ] at hx
      omega
    calc countBits (x + 2 ^ (k + 1) * y)
        = (x + (2 ^ k * y) * 2) % 2 + countBits ((x + (2 ^ k * y) * 2) / 2) := by
          rw [← hrw, countBits_unfold]
      _ = x % 2 + (countBits (x / 2) + countBits y) := by
          rw [hmod, hdivhalf, ih y hxdiv]
      _ = countBits x + countBits y := by
          rw [← Nat.add_assoc, ← countBits_unfold]

/-- XOR splits across shifted sums when both low parts fit below the shift. -/
theorem xor_add_mul_two_pow {k x1 y1 : Nat} (x2 y2 : Nat)
    (h1 : x1 < 2 ^ k) (h2 : y1 < 2 ^ k) :
    (x1 + 2 ^ k * x2) ^^^ (y1 + 2 ^ k * y2) = (x1 ^^^ y1) + 2 ^ k * (x2 ^^^ y2) := by
  apply Nat.eq_of_testBit_eq
  intro i
  have hx : x1 + 2 ^ k * x2 = 2 ^ k * x2 + x1 := by ring
  have hy : y1 + 2 ^ k * y2 = 2 ^ k * y2 + y1 := by ring
  have hxor : x1 ^^^ y1 < 2 ^ k := Nat.xor_lt_two_pow h1 h2
  have hz : (x1 ^^^ y1) + 2 ^ k * (x2 ^^^ y2) = 2 ^ k * (x2 ^^^ y2) + (x1 ^^^ y1) := by
    ring
  rw [hx, hy, hz, Nat.testBit_xor,
    Nat.testBit_mul_pow_two_add _ h1 i,
    Nat.testBit_mul_pow_two_add _ h2 i,
    Nat.testBit_mul_pow_two_add _ hxor i]
  by_cases hik : i < k
  · simp [hik, Nat.testBit_xor]
  · simp [hik, Nat.testBit_xor]

/-! ## Hexadecimal value lemmas -/

theorem hexValList_nil : hexValList [] = 0 := rfl

theorem hexValList_foldl (cs : List Char) :
    ∀ acc : Nat,
      cs.foldl (fun acc c => acc * 16 + hexDigitVal c) acc =
        acc * 16 ^ cs.length + hexValList cs := by
  induction cs with
  | nil => intro acc; simp [hexValList]
  | cons c cs ih =>
    intro acc
    have h1 : hexValList (c :: cs) = hexDigitVal c * 16 ^ cs.length + hexValList cs := by
      show cs.foldl _ (0 * 16 + hexDigitVal c) = _
      rw [ih]
      ring
    simp only [List.foldl_cons, List.length_cons]
    rw [ih, h1]
    ring

theorem hexValList_cons (c : Char) (cs : List Char) :
    hexValList (c :: cs) = hexDigitVal c * 16 ^ cs.length + hexValList cs := by
  show cs.foldl _ (0 * 16 + hexDigitVal c) = _
  rw [hexValList_foldl]
  ring

theorem hexValList_append (l1 l2 : List Char) :
    hexValList (l1 ++ l2) = hexValList l1 * 16 ^ l2.length + hexValList l2 := by
  show (l1 ++ l2).foldl _ 0 = _
  rw [List.foldl_append]
  exact hexValList_foldl l2 _

theorem hexValList_lt (cs : List Char) : hexValList cs < 16 ^ cs.length := by
  induction cs with
  | nil => simp [hexValList_nil]
  | cons c cs ih =>
    rw [hexValList_cons]
    have := hexDigitVal_lt c
    have h16 : (16 : Nat) ^ (c :: cs).length = 16 * 16 ^ cs.length := by
      simp [List.length_cons]
      ring
    rw [h16]
    nlinarith

theorem hexValList_replicate_zero (k : Nat) :
    hexValList (List.replicate k '0') = 0 := by
  induction k with
  | zero => rfl
  | succ k ih =>
    rw [List.replicate_succ, hexValList_cons, ih]
    have : hexDigitVal '0' = 0 := by decide
    simp [this]

/-! ## Parsing lemmas -/

theorem isHex16_spec {s : String} (h : isHex16 s = true) :
    s.data.length = 16 ∧ ∀ c ∈ s.data, isHexChar c = true := by
  simp only [isHex16, Bool.and_eq_true, decide_eq_true_eq, List.all_eq_true,
    String.length] at h
  exact h

theorem parseBigIntHex_of_hex {s : String} (hne : s.data ≠ [])
    (hall : ∀ c ∈ s.data, isHexChar c = true) :
    parseBigIntHex s = some (hexVal s) := by
  unfold parseBigIntHex
  have hrev : s.data.reverse.dropWhile jsIsWhitespace = s.data.reverse := by
    cases hr : s.data.reverse with
    | nil => simp
    | cons c rest =>
      have hc : c ∈ s.data := by
        rw [← List.mem_reverse, hr]
        exact List.mem_cons_self _ _
      simp [List.dropWhile_cons, isHexChar_not_ws (hall c hc)]
  rw [hrev, List.reverse_reverse, if_pos]
  · rfl
  · exact ⟨hne, by simpa [List.all_eq_true] using hall⟩

theorem jsParseIntHex_of_hex {l : List Char} (hne : l ≠ [])
    (hall : ∀ c ∈ l, isHexChar c = true) :
    jsParseIntHex (String.mk l) = some ((hexValList l : Int)) := by
  obtain ⟨c, cs, rfl⟩ := List.exists_cons_of_ne_nil hne
  have hc := hall c (List.mem_cons_self _ _)
  have hnotws : jsIsWhitespace c = false := isHexChar_not_ws hc
  have hsigns := isHexChar_ne_signs hc
  have hdata : (String.mk (c :: cs)).data = c :: cs := rfl
  have hdrop : (c :: cs).dropWhile jsIsWhitespace = c :: cs := by
    simp [List.dropWhile_cons, hnotws]
  have hsign : ¬ ((c :: cs).head? = some '-') := by simp [hsigns.1]
  have hsign2 : ¬ ((c :: cs).head? = some '-' ∨ (c :: cs).head? = some '+') := by
    simp [hsigns.1, hsigns.2.1]
  have hpre : ¬ ((c :: cs).take 2 = ['0', 'x'] ∨ (c :: cs).take 2 = ['0', 'X']) := by
    cases cs with
    | nil => simp
    | cons c2 cs2 =>
      have hc2 := hall c2 (by simp)
      have hsigns2 := isHexChar_ne_signs hc2
      simp [hsigns2.2.2.1, hsigns2.2.2.2]
  have htake : (c :: cs).takeWhile isHexChar = c :: cs :=
    List.takeWhile_eq_self_iff.mpr hall
  simp only [jsParseIntHex, hdata, hdrop]
  rw [if_neg hsign, if_neg hsign2, if_neg hpre, htake, if_neg (by simp)]
  simp

theorem jsToUint32_of_lt {v : Nat} (h : v < 2 ^ 32) :
    jsToUint32 (some ((v : Nat) : Int)) = v := by
  show ((((v : Nat) : Int)) % ((2 : Int) ^ 32)).toNat = v
  rw [Int.emod_eq_of_lt (by positivity) (by exact_mod_cast h)]
  simp

theorem hexVal_lt_two_pow_64 {s : String} (h : isHex16 s = true) :
    hexVal s < 2 ^ 64 := by
  obtain ⟨hlen, _⟩ := isHex16_spec h
  have := hexValList_lt s.data
  rw [hlen] at this
  norm_num at this
  exact this

/-! ## Chunk decomposition and the two Hamming-distance paths -/

theorem chunkTerm_eq {a b : String} (ha : isHex16 a = true) (hb : isHex16 b = true)
    (i : Nat) (hi : i + 4 ≤ 16) :
    chunkTerm a b i =
      countBits (hexValList ((a.data.drop i).take 4) ^^^
        hexValList ((b.data.drop i).take 4)) := by
  obtain ⟨halen, haall⟩ := isHex16_spec ha
  obtain ⟨hblen, hball⟩ := isHex16_spec hb
  have hchunk : ∀ (s : List Char), s.length = 16 → (∀ c ∈ s, isHexChar c = true) →
      ((s.drop i).take 4 ≠ [] ∧ ∀ c ∈ (s.drop i).take 4, isHexChar c = true) := by
    intro s hs hall
    constructor
    · have : ((s.drop i).take 4).length = 4 := by
        rw [List.length_take, List.length_drop, hs]
        omega
      intro hnil
      rw [hnil] at this
      simp at this
    · intro c hcmem
      exact hall c (List.mem_of_mem_drop (List.mem_of_mem_take hcmem))
  obtain ⟨hane, haall4⟩ := hchunk a.data halen haall
  obtain ⟨hbne, hball4⟩ := hchunk b.data hblen hball
  have hva : hexValList ((a.data.drop i).take 4) < 2 ^ 16 := by
    have h1 := hexValList_lt ((a.data.drop i).take 4)
    have h2 : ((a.data.drop i).take 4).length ≤ 4 := List.length_take_le _ _
    calc hexValList ((a.data.drop i).take 4)
        < 16 ^ ((a.data.drop i).take 4).length := h1
      _ ≤ 16 ^ 4 := Nat.pow_le_pow_right (by norm_num) h2
      _ = 2 ^ 16 := by norm_num
  have hvb : hexValList ((b.data.drop i).take 4) < 2 ^ 16 := by
    have h1 := hexValList_lt ((b.data.drop i).take 4)
    have h2 : ((b.data.drop i).take 4).length ≤ 4 := List.length_take_le _ _
    calc hexValList ((b.data.drop i).take 4)
        < 16 ^ ((b.data.drop i).take 4).length := h1
      _ ≤ 16 ^ 4 := Nat.pow_le_pow_right (by norm_num) h2
      _ = 2 ^ 16 := by norm_num
  unfold chunkTerm
  have hsa : substr4 a i = String.mk ((a.data.drop i).take 4) := rfl
  have hsb : substr4 b i = String.mk ((b.data.drop i).take 4) := rfl
  rw [hsa, hsb, jsParseIntHex_of_hex hane haall4, jsParseIntHex_of_hex hbne hball4,
    jsToUint32_of_lt (lt_trans hva (by norm_num)),
    jsToUint32_of_lt (lt_trans hvb (by norm_num))]
  have hxor : hexValList ((a.data.drop i).take 4) ^^^
      hexValList ((b.data.drop i).take 4) < 2 ^ 16 := Nat.xor_lt_two_pow hva hvb
  rw [if_neg (by omega)]

theorem hexValList_take4_lt (l : List Char) (i : Nat) :
    hexValList ((l.drop i).take 4) < 2 ^ 16 := by
  have h1 := hexValList_lt ((l.drop i).take 4)
  have h2 : ((l.drop i).take 4).length ≤ 4 := List.length_take_le _ _
  calc hexValList ((l.drop i).take 4)
      < 16 ^ ((l.drop i).take 4).length := h1
    _ ≤ 16 ^ 4 := Nat.pow_le_pow_right (by norm_num) h2
    _ = 2 ^ 16 := by norm_num

theorem hexValList_decompose16 {l : List Char} (hl : l.length = 16) :
    hexValList l =
      hexValList ((l.drop 12).take 4) + 2 ^ 16 *
        (hexValList ((l.drop 8).take 4) + 2 ^ 16 *
          (hexValList ((l.drop 4).take 4) + 2 ^ 16 *
            hexValList ((l.drop 0).take 4))) := by
  have hlen4 : ∀ i : Nat, i + 4 ≤ 16 → ((l.drop i).take 4).length = 4 := by
    intro i hi
    rw [List.length_take, List.length_drop, hl]
    omega
  have hsplit : l = (l.drop 0).take 4 ++
      ((l.drop 4).take 4 ++ ((l.drop 8).take 4 ++ (l.drop 12).take 4)) := by
    have e12 : (l.drop 12).take 4 = l.drop 12 :=
      List.take_of_length_le (by rw [List.length_drop, hl])
    have d48 : (l.drop 4).drop 4 = l.drop 8 := by rw [List.drop_drop]
    have d812 : (l.drop 8).drop 4 = l.drop 12 := by rw [List.drop_drop]
    rw [List.drop_zero, e12, ← d812, ← d48,
      List.take_append_drop, List.take_append_drop, List.take_append_drop]
  conv_lhs => rw [hsplit]
  rw [hexValList_append, hexValList_append, hexValList_append]
  have l1 : ((l.drop 4).take 4 ++ ((l.drop 8).take 4 ++ (l.drop 12).take 4)).length = 12 := by
    simp only [List.length_append]
    rw [hlen4 4 (by omega), hlen4 8 (by omega), hlen4 12 (by omega)]
  have l2 : ((l.drop 8).take 4 ++ (l.drop 12).take 4).length = 8 := by
    simp only [List.length_append]
    rw [hlen4 8 (by omega), hlen4 12 (by omega)]
  have l3 : ((l.drop 12).take 4).length = 4 := hlen4 12 (by omega)
  rw [l1, l2, l3]
  have e1 : (16 : Nat) ^ 12 = 2 ^ 48 := by norm_num
  have e2 : (16 : Nat) ^ 8 = 2 ^ 32 := by norm_num
  have e3 : (16 : Nat) ^ 4 = 2 ^ 16 := by norm_num
  rw [e1, e2, e3]
  ring

/-- The two Hamming-distance computations agree on well-formed fingerprints:
the single 64-bit XOR-and-popcount equals the sum of the four 16-bit chunk
popcounts. -/
theorem countBits_hexVal_xor {a b : String} (ha : isHex16 a = true)
    (hb : isHex16 b = true) :
    countBits (hexVal a ^^^ hexVal b) = hammingDistanceChunks a b := by
  obtain ⟨halen, haall⟩ := isHex16_spec ha
  obtain ⟨hblen, hball⟩ := isHex16_spec hb
  have hA : hexVal a = hexValList ((a.data.drop 12).take 4) + 2 ^ 16 *
      (hexValList ((a.data.drop 8).take 4) + 2 ^ 16 *
        (hexValList ((a.data.drop 4).take 4) + 2 ^ 16 *
          hexValList ((a.data.drop 0).take 4))) := hexValList_decompose16 halen
  have hB : hexVal b = hexValList ((b.data.drop 12).take 4) + 2 ^ 16 *
      (hexValList ((b.data.drop 8).take 4) + 2 ^ 16 *
        (hexValList ((b.data.drop 4).take 4) + 2 ^ 16 *
          hexValList ((b.data.drop 0).take 4))) := hexValList_decompose16 hblen
  rw [hA, hB,
    xor_add_mul_two_pow _ _ (hexValList_take4_lt a.data 12) (hexValList_take4_lt b.data 12),
    xor_add_mul_two_pow _ _ (hexValList_take4_lt a.data 8) (hexValList_take4_lt b.data 8),
    xor_add_mul_two_pow _ _ (hexValList_take4_lt a.data 4) (hexValList_take4_lt b.data 4),
    countBits_add_mul_two_pow _
      (Nat.xor_lt_two_pow (hexValList_take4_lt a.data 12) (hexValList_take4_lt b.data 12)),
    countBits_add_mul_two_pow _
      (Nat.xor_lt_two_pow (hexValList_take4_lt a.data 8) (hexValList_take4_lt b.data 8)),
    countBits_add_mul_two_pow _
      (Nat.xor_lt_two_pow (hexValList_take4_lt a.data 4) (hexValList_take4_lt b.data 4))]
  have hc0 := chunkTerm_eq ha hb 0 (by omega)
  have hc4 := chunkTerm_eq ha hb 4 (by omega)
  have hc8 := chunkTerm_eq ha hb 8 (by omega)
  have hc12 := chunkTerm_eq ha hb 12 (by omega)
  simp only [hammingDistanceChunks, List.map_cons, List.map_nil, List.sum_cons,
    List.sum_nil, hc0, hc4, hc8, hc12]
  omega

theorem calculateHammingDistance_of_len {a b : String} (ha : a.length = 16)
    (hb : b.length = 16) :
    calculateHammingDistance a b = some (hammingDistanceChunks a b) := by
  unfold calculateHammingDistance
  rw [if_neg]
  simp [ha, hb]

theorem hammingDistance_of_hex {a b : String} (ha : isHex16 a = true)
    (hb : isHex16 b = true) :
    hammingDistance a b = some (countBits (hexVal a ^^^ hexVal b)) := by
  obtain ⟨halen, haall⟩ := isHex16_spec ha
  obtain ⟨hblen, hball⟩ := isHex16_spec hb
  have hane : a.data ≠ [] := by intro h; rw [h] at halen; simp at halen
  have hbne : b.data ≠ [] := by intro h; rw [h] at hblen; simp at hblen
  simp [hammingDistance, parseBigIntHex_of_hex hane haall,
    parseBigIntHex_of_hex hbne hball]

/-! ## FNV-1a lemmas -/

theorem mask64_eq_mod (x : Nat) : x &&& MASK_64 = x % 2 ^ 64 := by
  show x &&& (2 ^ 64 - 1) = x % 2 ^ 64
  exact Nat.and_pow_two_sub_one_eq_mod x 64

theorem fnv1a64Step_eq_mod (hash code : Nat) :
    fnv1a64Step hash code = ((hash ^^^ code) * FNV_PRIME) % 2 ^ 64 := by
  unfold fnv1a64Step
  exact mask64_eq_mod _

theorem fnv1a64Step_lt (hash code : Nat) : fnv1a64Step hash code < 2 ^ 64 := by
  rw [fnv1a64Step_eq_mod]
  exact Nat.mod_lt _ (by norm_num)

theorem foldl_fnv1a64Step_lt :
    ∀ (l : List Nat) (acc : Nat), acc < 2 ^ 64 →
      l.foldl fnv1a64Step acc < 2 ^ 64 := by
  intro l
  induction l with
  | nil => intro acc h; simpa using h
  | cons c cs ih =>
    intro acc _
    exact ih (fnv1a64Step acc c) (fnv1a64Step_lt acc c)

theorem fnv1a64_lt (s : String) : fnv1a64 s < 2 ^ 64 :=
  foldl_fnv1a64Step_lt _ _ (by norm_num [FNV_OFFSET_BASIS])

theorem fnv1a64_empty : fnv1a64 "" = FNV_OFFSET_BASIS := rfl

theorem foldr_utf16_init (l : List Char) :
    ∀ init : List Nat,
      l.foldr (fun c acc => utf16Units c ++ acc) init =
        l.foldr (fun c acc => utf16Units c ++ acc) [] ++ init := by
  induction l with
  | nil => intro init; simp
  | cons c cs ih =>
    intro init
    simp only [List.foldr_cons]
    rw [ih init, List.append_assoc]

theorem utf16Codes_push (s : String) (c : Char) :
    utf16Codes (s.push c) = utf16Codes s ++ utf16Units c := by
  unfold utf16Codes
  rw [String.data_push, List.foldr_append]
  simp only [List.foldr_cons, List.foldr_nil]
  rw [foldr_utf16_init]
  simp

theorem fnv1a64_push (s : String) (c : Char) :
    fnv1a64 (s.push c) = (utf16Units c).foldl fnv1a64Step (fnv1a64 s) := by
  unfold fnv1a64
  rw [utf16Codes_push, List.foldl_append]

theorem utf16Units_bmp {c : Char} (h : c.toNat < 65536) :
    utf16Units c = [c.toNat] := by
  unfold utf16Units
  rw [if_pos h]

/-! ## Tokenizer lemmas -/

theorem jsIsWhitespace_toLower {c : Char} (h : jsIsWhitespace c = true) :
    c.toLower = c := by
  rw [jsIsWhitespace_iff] at h
  simp only [Char.toLower]
  rw [if_neg]
  omega

theorem splitOnSep_all_sep {p : Char → Bool} :
    ∀ {l : List Char}, (∀ c ∈ l, p c = true) →
      ∀ w ∈ splitOnSep p l, w = [] := by
  intro l
  induction l with
  | nil =>
    intro _ w hw
    simp only [splitOnSep, List.mem_singleton] at hw
    exact hw
  | cons c cs ih =>
    intro hall w hw
    have hc : p c = true := hall c (List.mem_cons_self _ _)
    simp only [splitOnSep, hc, if_true, List.mem_cons] at hw
    rcases hw with rfl | hw
    · rfl
    · exact ih (fun d hd => hall d (List.mem_cons_of_mem _ hd)) w hw

theorem tokenize_of_all_ws {text : String}
    (h : ∀ c ∈ text.data, jsIsWhitespace c = true) :
    tokenize text = [] := by
  unfold tokenize
  have hclean : text.data.map
      (fun c => let lc := c.toLower
        if jsIsWordChar lc ∨ jsIsWhitespace lc then lc else ' ') = text.data := by
    rw [List.map_congr_left (g := id), List.map_id]
    intro c hc
    have hws := h c hc
    have hlow : c.toLower = c := jsIsWhitespace_toLower hws
    simp only [hlow, id_eq]
    rw [if_pos (Or.inr hws)]
  rw [hclean]
  rw [List.filter_eq_nil_iff]
  intro w hw
  obtain ⟨piece, hpiece, rfl⟩ := List.mem_map.mp hw
  have : piece = [] := splitOnSep_all_sep h piece hpiece
  subst this
  decide

theorem tokenize_empty : tokenize "" = [] := by
  apply tokenize_of_all_ws
  intro c hc
  simp at hc

/-! ## Fingerprint vector lemmas -/

theorem bitProbe_eq (hash i : Nat) :
    ((hash >>> i) &&& 1) = (if hash.testBit i then 1 else 0) := by
  rw [Nat.and_one_is_mod, Nat.shiftRight_eq_div_pow, Nat.testBit_to_div_mod]
  rcases Nat.mod_two_eq_zero_or_one (hash / 2 ^ i) with h | h <;> simp [h]

theorem updateVector_eq (v : Nat → Int) (hash : Nat) {i : Nat} (hi : i < 64) :
    updateVector v hash i = v i + (if hash.testBit i then 1 else -1) := by
  unfold updateVector
  rw [if_pos hi, bitProbe_eq]
  by_cases h : hash.testBit i <;> simp [h]

theorem specBitWeight_nil (i : Nat) : specBitWeight [] i = 0 := rfl

theorem specBitWeight_cons (t : String) (ts : List String) (i : Nat) :
    specBitWeight (t :: ts) i =
      (if (fnv1a64 t).testBit i then (1 : Int) else -1) + specBitWeight ts i := by
  unfold specBitWeight
  simp

theorem computeVector_foldl (tokens : List String) :
    ∀ (v : Nat → Int) {i : Nat}, i < 64 →
      (tokens.foldl (fun v t => updateVector v (fnv1a64 t)) v) i =
        v i + specBitWeight tokens i := by
  induction tokens with
  | nil => intro v i _; simp [specBitWeight_nil]
  | cons t ts ih =>
    intro v i hi
    simp only [List.foldl_cons]
    rw [ih (updateVector v (fnv1a64 t)) hi, updateVector_eq v _ hi,
      specBitWeight_cons]
    ring

theorem computeVector_eq (tokens : List String) {i : Nat} (hi : i < 64) :
    computeVector tokens i = specBitWeight tokens i := by
  unfold computeVector
  rw [computeVector_foldl tokens _ hi]
  simp

theorem foldl_orBits_testBit (v : Nat → Int) :
    ∀ (n : Nat) (acc : Nat) (j : Nat),
      (((List.range n).foldl (fun f i => if 0 < v i then f ||| (1 <<< i) else f)
          acc).testBit j) =
        (acc.testBit j || (decide (j < n) && decide (0 < v j))) := by
  intro n
  induction n with
  | zero => intro acc j; simp
  | succ n ih =>
    intro acc j
    rw [List.range_succ, List.foldl_append, List.foldl_cons, List.foldl_nil]
    by_cases hv : 0 < v n
    · rw [if_pos hv, Nat.testBit_or, ih acc j, Nat.one_shiftLeft,
        Nat.testBit_two_pow]
      by_cases hj : j = n
      · subst hj
        simp [hv, Nat.lt_succ_self]
      · by_cases hjn : j < n
        · simp [hjn, Nat.lt_succ_of_lt hjn, Ne.symm hj]
        · have : ¬ j < n + 1 := by omega
          simp [hjn, this, Ne.symm hj]
    · rw [if_neg hv, ih acc j]
      by_cases hj : j = n
      · subst hj
        simp [hv]
      · by_cases hjn : j < n
        · simp [hjn, Nat.lt_succ_of_lt hjn]
        · have : ¬ j < n + 1 := by omega
          simp [hjn, this]

theorem fingerprintOfVector_testBit (v : Nat → Int) (j : Nat) :
    (fingerprintOfVector v).testBit j =
      (decide (j < 64) && decide (0 < v j)) := by
  unfold fingerprintOfVector
  rw [foldl_orBits_testBit]
  simp

theorem foldl_orBits_lt (v : Nat → Int) :
    ∀ (n : Nat), n ≤ 64 → ∀ (acc : Nat), acc < 2 ^ 64 →
      ((List.range n).foldl (fun f i => if 0 < v i then f ||| (1 <<< i) else f)
        acc) < 2 ^ 64 := by
  intro n
  induction n with
  | zero => intro _ acc h; simpa using h
  | succ n ih =>
    intro hn acc hacc
    rw [List.range_succ, List.foldl_append, List.foldl_cons, List.foldl_nil]
    have hrec := ih (by omega) acc hacc
    by_cases hv : 0 < v n
    · rw [if_pos hv]
      apply Nat.or_lt_two_pow hrec
      rw [Nat.one_shiftLeft]
      exact Nat.pow_lt_pow_right (by norm_num) (by omega)
    · rw [if_neg hv]
      exact hrec

theorem fingerprintOfVector_lt (v : Nat → Int) : fingerprintOfVector v < 2 ^ 64 :=
  foldl_orBits_lt v 64 (le_refl _) 0 (by norm_num)

/-! ## Hex encoding lemmas -/

theorem natToHexAux_zero : natToHexAux 0 = [] := by simp [natToHexAux]

theorem natToHexAux_ne {n : Nat} (h : n ≠ 0) :
    natToHexAux n = natToHexAux (n / 16) ++ [hexDigitChar (n % 16)] := by
  rw [natToHexAux]
  simp [h]

theorem hexDigitVal_hexDigitChar {m : Nat} (h : m < 16) :
    hexDigitVal (hexDigitChar m) = m := by
  interval_cases m <;> decide

theorem isLowerHexChar_hexDigitChar {m : Nat} (h : m < 16) :
    isLowerHexChar (hexDigitChar m) = true := by
  interval_cases m <;> decide

theorem hexValList_natToHexAux (n : Nat) :
    hexValList (natToHexAux n) = n := by
  induction n using Nat.strong_induction_on with
  | _ n ih =>
    by_cases h : n = 0
    · subst h
      rw [natToHexAux_zero, hexValList_nil]
    · rw [natToHexAux_ne h, hexValList_append,
        ih (n / 16) (Nat.div_lt_self (Nat.pos_of_ne_zero h) (by norm_num)),
        hexValList_cons, hexValList_nil,
        hexDigitVal_hexDigitChar (Nat.mod_lt n (by norm_num))]
      simp
      omega

theorem natToHexAux_length_le :
    ∀ (n k : Nat), n < 16 ^ k → (natToHexAux n).length ≤ k := by
  intro n
  induction n using Nat.strong_induction_on with
  | _ n ih =>
    intro k hk
    by_cases h : n = 0
    · subst h
      rw [natToHexAux_zero]
      simp
    · cases k with
      | zero =>
        simp at hk
        omega
      | succ k =>
        rw [natToHexAux_ne h, List.length_append, List.length_cons,
          List.length_nil]
        have hdiv : n / 16 < 16 ^ k := by
          rw [Nat.div_lt_iff_lt_mul (by norm_num)]
          calc n < 16 ^ (k + 1) := hk
            _ = 16 ^ k * 16 := by ring
        have := ih (n / 16) (Nat.div_lt_self (Nat.pos_of_ne_zero h) (by norm_num)) k hdiv
        omega

theorem natToHexAux_all_lower :
    ∀ (n : Nat), ∀ c ∈ natToHexAux n, isLowerHexChar c = true := by
  intro n
  induction n using Nat.strong_induction_on with
  | _ n ih =>
    intro c hc
    by_cases h : n = 0
    · subst h
      rw [natToHexAux_zero] at hc
      simp at hc
    · rw [natToHexAux_ne h] at hc
      rw [List.mem_append] at hc
      rcases hc with hc | hc
      · exact ih (n / 16) (Nat.div_lt_self (Nat.pos_of_ne_zero h) (by norm_num)) c hc
      · rw [List.mem_singleton] at hc
        subst hc
        exact isLowerHexChar_hexDigitChar (Nat.mod_lt n (by norm_num))

/-- The encoded fingerprint `padStart16 (natToHex n)` of a 64-bit value is a
16-character lowercase-hex string decoding back to `n`. -/
theorem encode16_spec {n : Nat} (h : n < 2 ^ 64) :
    (padStart16 (natToHex n)).length = 16 ∧
      (∀ c ∈ (padStart16 (natToHex n)).data, isLowerHexChar c = true) ∧
      hexVal (padStart16 (natToHex n)) = n := by
  have hdata : ∀ s : String, (padStart16 s).data =
      List.replicate (16 - s.length) '0' ++ s.data := fun _ => rfl
  have hlen16 : (natToHex n).length ≤ 16 := by
    unfold natToHex
    split_ifs with h0
    · decide
    · show (natToHexAux n).length ≤ 16
      exact natToHexAux_length_le n 16 (by norm_num at h ⊢; omega)
  have hall : ∀ c ∈ (natToHex n).data, isLowerHexChar c = true := by
    unfold natToHex
    split_ifs with h0
    · intro c hc
      have hd : ("0" : String).data = ['0'] := rfl
      rw [hd, List.mem_singleton] at hc
      subst hc
      decide
    · exact natToHexAux_all_lower n
  have hval : hexVal (natToHex n) = n := by
    unfold natToHex
    split_ifs with h0
    · subst h0; decide
    · show hexValList (natToHexAux n) = n
      exact hexValList_natToHexAux n
  refine ⟨?_, ?_, ?_⟩
  · show (List.replicate (16 - (natToHex n).length) '0' ++ (natToHex n).data).length = 16
    rw [List.length_append, List.length_replicate]
    have : (natToHex n).data.length = (natToHex n).length := rfl
    omega
  · rw [hdata]
    intro c hc
    rw [List.mem_append] at hc
    rcases hc with hc | hc
    · rw [List.eq_of_mem_replicate hc]
      decide
    · exact hall c hc
  · show hexValList (List.replicate (16 - (natToHex n).length) '0' ++ (natToHex n).data) = n
    rw [hexValList_append, hexValList_replicate_zero]
    simpa using hval

/-! ## Grouper lemmas -/

theorem findById_eq {articles : List ArticleInput}
    (hnd : (articles.map (fun a => a.id)).Nodup) {a : ArticleInput}
    (ha : a ∈ articles) : findById articles a.id = some a := by
  induction articles with
  | nil => simp at ha
  | cons b rest ih =>
    rw [List.map_cons, List.nodup_cons] at hnd
    rcases List.mem_cons.mp ha with rfl | ha
    · exact List.find?_cons_of_pos _ (by simp)
    · have hne : ¬ (decide (b.id = a.id) = true) := by
        simp only [decide_eq_true_eq]
        intro heq
        exact hnd.1 (heq ▸ List.mem_map_of_mem (fun x => x.id) ha)
      show List.find? (fun x => decide (x.id = a.id)) (b :: rest) = some a
      rw [@List.find?_cons_of_neg ArticleInput (fun x => decide (x.id = a.id)) b rest hne]
      exact ih hnd.2 ha

theorem scanCandidates_spec (center : ArticleInput) (t : Nat)
    (hc : center.simHash.length = 16) :
    ∀ (cands : List ArticleInput), (∀ a ∈ cands, a.simHash.length = 16) →
      ∀ (mem asg : List String) (tot : Nat),
        ∃ added : List ArticleInput,
          scanCandidates center t cands mem asg tot =
            some (mem ++ added.map (fun a => a.id),
              (added.map (fun a => a.id)).reverse ++ asg,
              tot + (added.map (fun a =>
                hammingDistanceChunks center.simHash a.simHash)).sum) ∧
          (∀ a ∈ added, a ∈ cands) ∧
          (∀ a ∈ added, a.id ∉ asg ∧ a.id ≠ center.id) ∧
          (added.map (fun a => a.id)).Nodup := by
  intro cands
  induction cands with
  | nil =>
    intro _ mem asg tot
    refine ⟨[], ?_, by simp, by simp, by simp⟩
    simp [scanCandidates]
  | cons cand rest ih =>
    intro hlen mem asg tot
    have hlenr : ∀ a ∈ rest, a.simHash.length = 16 :=
      fun a ha => hlen a (List.mem_cons_of_mem _ ha)
    by_cases hskip : cand.id = center.id ∨ cand.id ∈ asg
    · obtain ⟨added, heq, hmem, hprop, hnd⟩ := ih hlenr mem asg tot
      refine ⟨added, ?_, fun a ha => List.mem_cons_of_mem _ (hmem a ha), hprop, hnd⟩
      rw [scanCandidates, if_pos hskip]
      exact heq
    · push_neg at hskip
      have hcd := calculateHammingDistance_of_len hc (hlen cand (List.mem_cons_self _ _))
      by_cases hth : hammingDistanceChunks center.simHash cand.simHash ≤ t
      · obtain ⟨added, heq, hmem, hprop, hnd⟩ :=
          ih hlenr (mem ++ [cand.id]) (cand.id :: asg)
            (tot + hammingDistanceChunks center.simHash cand.simHash)
        refine ⟨cand :: added, ?_, ?_, ?_, ?_⟩
        · rw [scanCandidates, if_neg (not_or.mpr ⟨hskip.1, hskip.2⟩), hcd]
          dsimp only
          rw [if_pos hth, heq]
          simp [List.append_assoc, add_assoc]
        · intro a ha
          rcases List.mem_cons.mp ha with rfl | ha
          · exact List.mem_cons_self _ _
          · exact List.mem_cons_of_mem _ (hmem a ha)
        · intro a ha
          rcases List.mem_cons.mp ha with rfl | ha
          · exact ⟨hskip.2, hskip.1⟩
          · obtain ⟨hnot, hne⟩ := hprop a ha
            exact ⟨fun hmem2 => hnot (List.mem_cons_of_mem _ hmem2), hne⟩
        · rw [List.map_cons, List.nodup_cons]
          refine ⟨?_, hnd⟩
          intro hmemC
          obtain ⟨a, ha, haeq⟩ := List.mem_map.mp hmemC
          exact (hprop a ha).1 (by rw [haeq]; exact List.mem_cons_self _ _)
      · obtain ⟨added, heq, hmem, hprop, hnd⟩ := ih hlenr mem asg tot
        refine ⟨added, ?_, fun a ha => List.mem_cons_of_mem _ (hmem a ha), hprop, hnd⟩
        rw [scanCandidates, if_neg (not_or.mpr ⟨hskip.1, hskip.2⟩), hcd]
        dsimp only
        rw [if_neg hth]
        exact heq

theorem buildGroups_partition (sorted : List ArticleInput) (t : Nat)
    (hlen : ∀ a ∈ sorted, a.simHash.length = 16) :
    ∀ (pending done : List ArticleInput) (asg : List String)
      (groups : List ArticleGroup),
      sorted = done ++ pending →
      (∀ a ∈ done, a.id ∈ asg) →
      asg.Nodup →
      (∀ x ∈ asg, x ∈ sorted.map (fun a => a.id)) →
      ((groups.flatMap (fun g => g.memberIds)).Perm asg) →
      ∃ (gs : List ArticleGroup) (asg2 : List String),
        buildGroups sorted t pending asg groups = some gs ∧
        ((gs.flatMap (fun g => g.memberIds)).Perm asg2) ∧
        asg2.Nodup ∧
        (∀ x ∈ asg2, x ∈ sorted.map (fun a => a.id)) ∧
        (∀ a ∈ sorted, a.id ∈ asg2) := by
  intro pending
  induction pending with
  | nil =>
    intro done asg groups hsort hdone hnd hsub hperm
    rw [List.append_nil] at hsort
    refine ⟨groups, asg, by simp [buildGroups], hperm, hnd, hsub, ?_⟩
    intro a ha
    exact hdone a (hsort ▸ ha)
  | cons art rest ih =>
    intro done asg groups hsort hdone hnd hsub hperm
    have hsort2 : sorted = (done ++ [art]) ++ rest := by
      rw [hsort, List.append_assoc, List.singleton_append]
    by_cases hin : art.id ∈ asg
    · rw [buildGroups, if_pos hin]
      refine ih (done ++ [art]) asg groups hsort2 ?_ hnd hsub hperm
      intro a ha
      rcases List.mem_append.mp ha with ha | ha
      · exact hdone a ha
      · rw [List.mem_singleton] at ha
        subst ha
        exact hin
    · have hart_mem : art ∈ sorted := by
        rw [hsort]
        exact List.mem_append_right _ (List.mem_cons_self _ _)
      have hartid : art.id ∈ sorted.map (fun a => a.id) :=
        List.mem_map_of_mem _ hart_mem
      have hc : art.simHash.length = 16 := hlen art hart_mem
      obtain ⟨added, heq, hmem, hprop, hndadd⟩ :=
        scanCandidates_spec art t hc sorted hlen [art.id] asg 0
      have hnotinL : art.id ∉ added.map (fun a => a.id) := by
        intro hmemL
        obtain ⟨a, ha, haeq⟩ := List.mem_map.mp hmemL
        exact (hprop a ha).2 haeq
      rw [buildGroups, if_neg hin, heq]
      dsimp only
      refine ih (done ++ [art]) _ _ hsort2 ?_ ?_ ?_ ?_
      · -- processed articles are assigned
        intro a ha
        rcases List.mem_append.mp ha with ha | ha
        · exact List.mem_cons_of_mem _
            (List.mem_append_right _ (hdone a ha))
        · rw [List.mem_singleton] at ha
          subst ha
          exact List.mem_cons_self _ _
      · -- the new assigned list has no duplicates
        rw [List.nodup_cons]
        constructor
        · intro hbad
          rcases List.mem_append.mp hbad with hbad | hbad
          · exact hnotinL (List.mem_reverse.mp hbad)
          · exact hin hbad
        · rw [List.nodup_append]
          refine ⟨List.nodup_reverse.mpr hndadd, hnd, ?_⟩
          intro x hx hx2
          obtain ⟨a, ha, haeq⟩ := List.mem_map.mp (List.mem_reverse.mp hx)
          exact (hprop a ha).1 (haeq ▸ hx2)
      · -- the new assigned list only holds batch ids
        intro x hx
        rcases List.mem_cons.mp hx with rfl | hx
        · exact hartid
        · rcases List.mem_append.mp hx with hx | hx
          · obtain ⟨a, ha, haeq⟩ := List.mem_map.mp (List.mem_reverse.mp hx)
            exact haeq ▸ List.mem_map_of_mem _ (hmem a ha)
          · exact hsub x hx
      · -- the member lists stay a permutation of the assigned set
        rw [List.flatMap_append]
        simp only [List.flatMap_cons, List.flatMap_nil, List.append_nil]
        show (groups.flatMap (fun g => g.memberIds) ++
            (art.id :: added.map (fun a => a.id))).Perm
          (art.id :: ((added.map (fun a => a.id)).reverse ++ asg))
        exact ((hperm.append_right _).trans List.perm_append_comm).trans
          (List.Perm.cons _ (List.Perm.append_right _
            (List.reverse_perm (added.map (fun a => a.id))).symm))

theorem buildGroups_avg (articles sorted : List ArticleInput) (t : Nat)
    (hids : (articles.map (fun a => a.id)).Nodup)
    (hsubA : ∀ a ∈ sorted, a ∈ articles)
    (hlen : ∀ a ∈ sorted, a.simHash.length = 16) :
    ∀ (pending : List ArticleInput) (asg : List String)
      (groups : List ArticleGroup),
      (∀ a ∈ pending, a ∈ sorted) →
      (∀ g ∈ groups, groupAvgSpec articles g) →
      ∀ gs, buildGroups sorted t pending asg groups = some gs →
        ∀ g ∈ gs, groupAvgSpec articles g := by
  intro pending
  induction pending with
  | nil =>
    intro asg groups _ hgroups gs hgs
    rw [buildGroups] at hgs
    injection hgs with hgs
    subst hgs
    exact hgroups
  | cons art rest ih =>
    intro asg groups hpend hgroups gs hgs
    have hpendr : ∀ a ∈ rest, a ∈ sorted :=
      fun a ha => hpend a (List.mem_cons_of_mem _ ha)
    have hart_sorted : art ∈ sorted := hpend art (List.mem_cons_self _ _)
    have hart_articles : art ∈ articles := hsubA art hart_sorted
    by_cases hin : art.id ∈ asg
    · rw [buildGroups, if_pos hin] at hgs
      exact ih asg groups hpendr hgroups gs hgs
    · have hc : art.simHash.length = 16 := hlen art hart_sorted
      obtain ⟨added, heq, hmem, hprop, hndadd⟩ :=
        scanCandidates_spec art t hc sorted hlen [art.id] asg 0
      rw [buildGroups, if_neg hin, heq] at hgs
      dsimp only at hgs
      refine ih _ _ hpendr ?_ gs hgs
      intro g hg
      rcases List.mem_append.mp hg with hg | hg
      · exact hgroups g hg
      · rw [List.mem_singleton] at hg
        subst hg
        refine ⟨art, findById_eq hids hart_articles, rfl, ?_, ?_, ?_⟩
        · -- a singleton cluster reports average 0
          intro htail
          have hL : added.map (fun a => a.id) = [] := htail
          show (if 1 < ([art.id] ++ added.map (fun a => a.id)).length then _ else 0) = 0
          rw [hL]
          simp
        · -- member ids resolve in the batch
          intro mid hmid
          have hmid2 : mid ∈ added.map (fun a => a.id) := hmid
          obtain ⟨a, ha, haeq⟩ := List.mem_map.mp hmid2
          have : findById articles mid = some a := by
            rw [← haeq]
            exact findById_eq hids (hsubA a (hmem a ha))
          rw [this]
          rfl
        · -- otherwise the mean of the member distances
          intro htail
          have hL : added.map (fun a => a.id) ≠ [] := htail
          have hlenpos : 0 < (added.map (fun a => a.id)).length :=
            List.length_pos.mpr hL
          show (if 1 < ([art.id] ++ added.map (fun a => a.id)).length then
              ((0 + (added.map (fun a =>
                hammingDistanceChunks art.simHash a.simHash)).sum : Nat) : Rat) /
                ((([art.id] ++ added.map (fun a => a.id)).length - 1 : Nat) : Rat)
            else 0) = _
          have hposif : 1 < ([art.id] ++ added.map (fun a => a.id)).length := by
            rw [List.length_append, List.length_singleton]
            omega
          rw [if_pos hposif]
          have hlen2 : ([art.id] ++ added.map (fun a => a.id)).length - 1 =
              (added.map (fun a => a.id)).length := by
            simp
          rw [hlen2]
          have htailEq : ([art.id] ++ added.map (fun a => a.id)).tail =
              added.map (fun a => a.id) := rfl
          rw [htailEq]
          have hmapEq : (added.map (fun a => a.id)).map
              (memberDistance articles art) =
              added.map (fun a =>
                ((hammingDistanceChunks art.simHash a.simHash : Nat) : Rat)) := by
            rw [List.map_map]
            apply List.map_congr_left
            intro a ha
            show memberDistance articles art a.id = _
            unfold memberDistance
            rw [findById_eq hids (hsubA a (hmem a ha))]
          rw [hmapEq]
          have hsum : (added.map (fun a =>
              ((hammingDistanceChunks art.simHash a.simHash : Nat) : Rat))).sum =
              (((added.map (fun a =>
                hammingDistanceChunks art.simHash a.simHash)).sum : Nat) : Rat) := by
            rw [Nat.cast_list_sum, List.map_map]
            rfl
          rw [hsum]
          have hlen3 : ((added.map (fun a => a.id)).length : Rat) =
              ((added.map (fun a =>
                hammingDistanceChunks art.simHash a.simHash)).length : Rat) := by
            simp
          rw [hlen3]
          norm_num

/-! ## Sort-order helper lemmas -/

theorem descLe_trans (a b c : ArticleInput) :
    decide (b.publishedAt ≤ a.publishedAt) = true →
    decide (c.publishedAt ≤ b.publishedAt) = true →
    decide (c.publishedAt ≤ a.publishedAt) = true := by
  simp only [decide_eq_true_eq]
  omega

theorem descLe_total (a b : ArticleInput) :
    (decide (b.publishedAt ≤ a.publishedAt) ||
      decide (a.publishedAt ≤ b.publishedAt)) = true := by
  simp only [Bool.or_eq_true, decide_eq_true_eq]
  omega

/-! ## Claim theorems -/

/-- C7: `classifyMatch` (`getMatchType`) maps every distance in `[0, 64]` by
the exact boundaries: `0 → exact`, `1–3 → near`, `4–10 → similar`,
`11–64 → different`; the four ranges cover `[0, 64]` with no gaps or
overlaps. -/
theorem getMatchType_boundaries (d : Nat) (hd : d ≤ 64) :
    (getMatchType d = MatchType.exact ↔ d = 0) ∧
    (getMatchType d = MatchType.near ↔ 1 ≤ d ∧ d ≤ 3) ∧
    (getMatchType d = MatchType.similar ↔ 4 ≤ d ∧ d ≤ 10) ∧
    (getMatchType d = MatchType.different ↔ 11 ≤ d ∧ d ≤ 64) := by
  unfold getMatchType
  split_ifs with h1 h2 h3 <;> refine ⟨?_, ?_, ?_, ?_⟩ <;> simp_all <;> omega

theorem getMatchType_boundaries_witness :
    getMatchType 7 = MatchType.similar ↔ 4 ≤ 7 ∧ 7 ≤ 10 :=
  (getMatchType_boundaries 7 (by norm_num)).2.2.1

/-- C8: on well-formed 16-hex-character fingerprints the fast-path
`hammingDistance` satisfies `d(a, a) = 0`, symmetry, and `0 ≤ d ≤ 64`. -/
theorem hammingDistance_metric (a b : String) (ha : isHex16 a = true)
    (hb : isHex16 b = true) :
    hammingDistance a a = some 0 ∧
    hammingDistance a b = hammingDistance b a ∧
    (∀ d, hammingDistance a b = some d → d ≤ 64) := by
  refine ⟨?_, ?_, ?_⟩
  · rw [hammingDistance_of_hex ha ha]
    rw [Nat.xor_self, countBits_zero]
  · rw [hammingDistance_of_hex ha hb, hammingDistance_of_hex hb ha,
      Nat.xor_comm]
  · intro d hd
    rw [hammingDistance_of_hex ha hb] at hd
    injection hd with hd
    subst hd
    exact countBits_le
      (Nat.xor_lt_two_pow (hexVal_lt_two_pow_64 ha) (hexVal_lt_two_pow_64 hb))

theorem hammingDistance_metric_witness :
    hammingDistance "f000000000000000" "f000000000000000" = some 0 ∧
    hammingDistance "f000000000000000" "0000000000000000" =
      hammingDistance "0000000000000000" "f000000000000000" :=
  ⟨(hammingDistance_metric "f000000000000000" "0000000000000000"
      (by decide) (by decide)).1,
    (hammingDistance_metric "f000000000000000" "0000000000000000"
      (by decide) (by decide)).2.1⟩

/-- C4: on inputs that are exactly 16 hexadecimal characters, the validated
chunked comparator `calculateHammingDistance` returns the same value as the
fast-path `hammingDistance` (single 64-bit XOR and popcount). -/
theorem calculateHammingDistance_eq_fast (a b : String) (ha : isHex16 a = true)
    (hb : isHex16 b = true) :
    ∃ d, calculateHammingDistance a b = some d ∧ hammingDistance a b = some d := by
  refine ⟨hammingDistanceChunks a b, ?_, ?_⟩
  · exact calculateHammingDistance_of_len (isHex16_spec ha).1 (isHex16_spec hb).1
  · rw [hammingDistance_of_hex ha hb, countBits_hexVal_xor ha hb]

theorem calculateHammingDistance_eq_fast_witness :
    ∃ d, calculateHammingDistance "f000000000000000" "0000000000000000" =
        some d ∧
      hammingDistance "f000000000000000" "0000000000000000" = some d :=
  calculateHammingDistance_eq_fast "f000000000000000" "0000000000000000"
    (by decide) (by decide)

/-- C1 (counterexample): a 16-character input made of non-hexadecimal
characters does not raise the format error — `calculateHammingDistance`
only checks the length, so the claim's "16 hexadecimal characters"
condition is refuted. -/
theorem calculateHammingDistance_nonHex_no_error :
    isHex16 "gggggggggggggggg" = false ∧
    ("gggggggggggggggg" : String).length = 16 ∧
    calculateHammingDistance "gggggggggggggggg" "0000000000000000" = some 0 := by
  refine ⟨by decide, by decide, ?_⟩
  have hterm : ∀ i : Nat,
      jsToUint32 (jsParseIntHex (substr4 "gggggggggggggggg" i)) = 0 →
      jsToUint32 (jsParseIntHex (substr4 "0000000000000000" i)) = 0 →
      chunkTerm "gggggggggggggggg" "0000000000000000" i = 0 := by
    intro i hA hB
    unfold chunkTerm
    rw [hA, hB]
    norm_num [countBits_zero]
  have h0 := hterm 0 (by decide) (by decide)
  have h4 := hterm 4 (by decide) (by decide)
  have h8 := hterm 8 (by decide) (by decide)
  have h12 := hterm 12 (by decide) (by decide)
  rw [calculateHammingDistance_of_len (by decide) (by decide)]
  simp [hammingDistanceChunks, h0, h4, h8, h12]

/-- C1 (amended): `calculateHammingDistance` fails exactly when one of the
inputs is not exactly 16 characters long — hexadecimal content is not
validated — and otherwise returns the chunked Hamming distance. -/
theorem calculateHammingDistance_error_iff (a b : String) :
    (calculateHammingDistance a b = none ↔ (a.length ≠ 16 ∨ b.length ≠ 16)) ∧
    (a.length = 16 → b.length = 16 →
      calculateHammingDistance a b = some (hammingDistanceChunks a b)) := by
  constructor
  · unfold calculateHammingDistance
    split_ifs with h
    · simp [h]
    · simp [h]
  · intro ha hb
    exact calculateHammingDistance_of_len ha hb

theorem calculateHammingDistance_error_iff_witness :
    calculateHammingDistance "ffffffffffffffff" "0123456789abcdef" =
      some (hammingDistanceChunks "ffffffffffffffff" "0123456789abcdef") :=
  (calculateHammingDistance_error_iff "ffffffffffffffff" "0123456789abcdef").2
    (by decide) (by decide)

/-- C6 (counterexample): `fnv1a64` iterates UTF-16 code units
(`charCodeAt`), not code points: on a supplementary-plane character the
hash differs from the spec's "numeric code point" reading. -/
theorem fnv1a64_codePoints_counterexample :
    fnv1a64 "😀" ≠ fnv1a64CodePoints "😀" := by decide

/-- C6 (amended): `fnv1a64` is the FNV-1a 64-bit hash over the UTF-16 code
units of the input: the empty string hashes to the offset constant, every
hash fits in 64 bits, each step XORs the code unit and multiplies by the
prime modulo `2 ^ 64`, and for basic-multilingual-plane characters
(code point < 2^16) the per-character recurrence of the spec holds. -/
theorem fnv1a64_spec :
    fnv1a64 "" = FNV_OFFSET_BASIS ∧
    (∀ s : String, fnv1a64 s < 2 ^ 64) ∧
    (∀ s : String, fnv1a64 s =
      (utf16Codes s).foldl (fun h u => ((h ^^^ u) * FNV_PRIME) % 2 ^ 64)
        FNV_OFFSET_BASIS) ∧
    (∀ (s : String) (c : Char), c.toNat < 65536 →
      fnv1a64 (s.push c) = ((fnv1a64 s ^^^ c.toNat) * FNV_PRIME) % 2 ^ 64) := by
  have hstep : fnv1a64Step = fun h u => ((h ^^^ u) * FNV_PRIME) % 2 ^ 64 := by
    funext h u
    exact fnv1a64Step_eq_mod h u
  refine ⟨rfl, fnv1a64_lt, ?_, ?_⟩
  · intro s
    unfold fnv1a64
    rw [hstep]
  · intro s c hc
    rw [fnv1a64_push, utf16Units_bmp hc]
    simp only [List.foldl_cons, List.foldl_nil]
    exact fnv1a64Step_eq_mod _ _

theorem fnv1a64_spec_witness :
    fnv1a64 (String.push "a" 'b') =
      ((fnv1a64 "a" ^^^ 'b'.toNat) * FNV_PRIME) % 2 ^ 64 :=
  fnv1a64_spec.2.2.2 "a" 'b' (by decide)

/-- C2: `computeFingerprint` (`computeSimHash`): an empty token sequence —
in particular empty or whitespace-only text — yields the sentinel
`"0000000000000000"`; otherwise the result is a 16-character lowercase
hexadecimal string whose bit `i` is `1` exactly when the sum over the
tokens of the `±1` bit votes at position `i` is strictly positive (a tie
gives bit `0`), all bits at or above position 64 being `0`. -/
theorem computeSimHash_spec (text : String) :
    (tokenize text = [] → computeSimHash text = "0000000000000000") ∧
    ((∀ c ∈ text.data, jsIsWhitespace c = true) →
      computeSimHash text = "0000000000000000") ∧
    (tokenize text ≠ [] →
      (computeSimHash text).length = 16 ∧
      (∀ c ∈ (computeSimHash text).data, isLowerHexChar c = true) ∧
      (∀ i, i < 64 →
        ((hexVal (computeSimHash text)).testBit i = true ↔
          0 < specBitWeight (tokenize text) i)) ∧
      (∀ i, 64 ≤ i → (hexVal (computeSimHash text)).testBit i = false)) := by
  have hempty : tokenize text = [] → computeSimHash text = "0000000000000000" := by
    intro h
    simp only [computeSimHash]
    rw [h]
    simp
  refine ⟨hempty, fun hws => hempty (tokenize_of_all_ws hws), ?_⟩
  intro hne
  have hcs : computeSimHash text =
      padStart16 (natToHex (fingerprintOfVector (computeVector (tokenize text)))) := by
    simp only [computeSimHash]
    rw [if_neg (fun h => hne (List.length_eq_zero.mp h))]
  have hlt : fingerprintOfVector (computeVector (tokenize text)) < 2 ^ 64 :=
    fingerprintOfVector_lt _
  obtain ⟨hlen, hlower, hval⟩ := encode16_spec hlt
  rw [hcs]
  refine ⟨hlen, hlower, ?_, ?_⟩
  · intro i hi
    rw [hval, fingerprintOfVector_testBit, computeVector_eq _ hi]
    simp [hi]
  · intro i hi
    rw [hval]
    apply Nat.testBit_lt_two_pow
    calc fingerprintOfVector (computeVector (tokenize text)) < 2 ^ 64 := hlt
      _ ≤ 2 ^ i := Nat.pow_le_pow_right (by norm_num) hi

theorem computeSimHash_spec_witness :
    computeSimHash "" = "0000000000000000" ∧
    (computeSimHash "ab cd").length = 16 :=
  ⟨(computeSimHash_spec "").1 (by decide),
    ((computeSimHash_spec "ab cd").2.2 (by decide)).1⟩

/-- C3: on a batch with pairwise-distinct ids and well-formed fingerprints,
`groupArticlesBySimilarity` does not fail and the member id lists of the
returned clusters are, taken together, a permutation of the batch's ids
(each id in exactly one cluster); the empty batch yields `some []`. -/
theorem groupArticles_partition (articles : List ArticleInput) (t : Nat)
    (hids : (articles.map (fun a => a.id)).Nodup)
    (hhex : ∀ a ∈ articles, isHex16 a.simHash = true) :
    groupArticlesBySimilarity [] t = some [] ∧
    ∃ gs, groupArticlesBySimilarity articles t = some gs ∧
      ((gs.flatMap (fun g => g.memberIds)).Perm
        (articles.map (fun a => a.id))) := by
  refine ⟨rfl, ?_⟩
  by_cases hemp : articles.length = 0
  · have : articles = [] := List.length_eq_zero.mp hemp
    subst this
    exact ⟨[], rfl, by simp⟩
  · have hperm : (sortByPublishedDesc articles).Perm articles :=
      List.mergeSort_perm articles _
    have hlen : ∀ a ∈ sortByPublishedDesc articles, a.simHash.length = 16 := by
      intro a ha
      exact (isHex16_spec (hhex a (hperm.subset ha))).1
    obtain ⟨gs, asg2, hbuild, hpermg, hnd2, hsub2, hall2⟩ :=
      buildGroups_partition (sortByPublishedDesc articles) t hlen
        (sortByPublishedDesc articles) [] [] [] (by simp) (by simp) (by simp)
        (by simp) (by simp)
    refine ⟨gs, ?_, ?_⟩
    · unfold groupArticlesBySimilarity
      rw [if_neg hemp]
      exact hbuild
    · have hids_sorted :
          ((sortByPublishedDesc articles).map (fun a => a.id)).Nodup :=
        ((hperm.map (fun a => a.id)).nodup_iff).mpr hids
      have hsub_rev : ∀ x ∈ (sortByPublishedDesc articles).map (fun a => a.id),
          x ∈ asg2 := by
        intro x hx
        obtain ⟨a, ha, rfl⟩ := List.mem_map.mp hx
        exact hall2 a ha
      have hperm_asg : asg2.Perm
          ((sortByPublishedDesc articles).map (fun a => a.id)) :=
        List.Subperm.antisymm
          (List.subperm_of_subset hnd2 (by intro x hx; exact hsub2 x hx))
          (List.subperm_of_subset hids_sorted (by intro x hx; exact hsub_rev x hx))
      exact hpermg.trans (hperm_asg.trans (hperm.map _))

theorem groupArticles_partition_witness :
    groupArticlesBySimilarity [] 3 = some [] ∧
    ∃ gs, groupArticlesBySimilarity
        [{ id := "a1", headline := "h1", simHash := "ffffffffffffffff",
           publishedAt := 100, sourceDomain := "example.com" },
         { id := "a2", headline := "h2", simHash := "efffffffffffffff",
           publishedAt := 99, sourceDomain := "example.com" },
         { id := "a3", headline := "h3", simHash := "0000000000000000",
           publishedAt := 98, sourceDomain := "example.com" }] 3 = some gs ∧
      ((gs.flatMap (fun g => g.memberIds)).Perm
        (([{ id := "a1", headline := "h1", simHash := "ffffffffffffffff",
             publishedAt := 100, sourceDomain := "example.com" },
           { id := "a2", headline := "h2", simHash := "efffffffffffffff",
             publishedAt := 99, sourceDomain := "example.com" },
           { id := "a3", headline := "h3", simHash := "0000000000000000",
             publishedAt := 98, sourceDomain := "example.com" }] :
            List ArticleInput).map (fun a => a.id))) :=
  groupArticles_partition
    [{ id := "a1", headline := "h1", simHash := "ffffffffffffffff",
       publishedAt := 100, sourceDomain := "example.com" },
     { id := "a2", headline := "h2", simHash := "efffffffffffffff",
       publishedAt := 99, sourceDomain := "example.com" },
     { id := "a3", headline := "h3", simHash := "0000000000000000",
       publishedAt := 98, sourceDomain := "example.com" }] 3
    (by decide) (by decide)

/-- C5: every returned cluster's `averageDistance` is the arithmetic mean of
the Hamming distances from the center's fingerprint to each non-center
member's fingerprint, and a cluster holding only its center has
`averageDistance` 0. -/
theorem groupArticles_averageDistance (articles : List ArticleInput) (t : Nat)
    (hids : (articles.map (fun a => a.id)).Nodup)
    (hhex : ∀ a ∈ articles, isHex16 a.simHash = true) :
    ∃ gs, groupArticlesBySimilarity articles t = some gs ∧
      ∀ g ∈ gs, groupAvgSpec articles g := by
  by_cases hemp : articles.length = 0
  · have : articles = [] := List.length_eq_zero.mp hemp
    subst this
    exact ⟨[], rfl, by simp⟩
  · have hperm : (sortByPublishedDesc articles).Perm articles :=
      List.mergeSort_perm articles _
    have hlen : ∀ a ∈ sortByPublishedDesc articles, a.simHash.length = 16 := by
      intro a ha
      exact (isHex16_spec (hhex a (hperm.subset ha))).1
    obtain ⟨gs, asg2, hbuild, _, _, _, _⟩ :=
      buildGroups_partition (sortByPublishedDesc articles) t hlen
        (sortByPublishedDesc articles) [] [] [] (by simp) (by simp) (by simp)
        (by simp) (by simp)
    refine ⟨gs, ?_, ?_⟩
    · unfold groupArticlesBySimilarity
      rw [if_neg hemp]
      exact hbuild
    · exact buildGroups_avg articles (sortByPublishedDesc articles) t hids
        (fun a ha => hperm.subset ha) hlen (sortByPublishedDesc articles) [] []
        (fun a ha => ha) (by simp) gs hbuild

theorem groupArticles_averageDistance_witness :
    ∃ gs, groupArticlesBySimilarity
        [{ id := "a1", headline := "h1", simHash := "ffffffffffffffff",
           publishedAt := 100, sourceDomain := "example.com" },
         { id := "a2", headline := "h2", simHash := "efffffffffffffff",
           publishedAt := 99, sourceDomain := "example.com" },
         { id := "a3", headline := "h3", simHash := "0000000000000000",
           publishedAt := 98, sourceDomain := "example.com" }] 3 = some gs ∧
      ∀ g ∈ gs, groupAvgSpec
        [{ id := "a1", headline := "h1", simHash := "ffffffffffffffff",
           publishedAt := 100, sourceDomain := "example.com" },
         { id := "a2", headline := "h2", simHash := "efffffffffffffff",
           publishedAt := 99, sourceDomain := "example.com" },
         { id := "a3", headline := "h3", simHash := "0000000000000000",
           publishedAt := 98, sourceDomain := "example.com" }] g :=
  groupArticles_averageDistance
    [{ id := "a1", headline := "h1", simHash := "ffffffffffffffff",
       publishedAt := 100, sourceDomain := "example.com" },
     { id := "a2", headline := "h2", simHash := "efffffffffffffff",
       publishedAt := 99, sourceDomain := "example.com" },
     { id := "a3", headline := "h3", simHash := "0000000000000000",
       publishedAt := 98, sourceDomain := "example.com" }] 3
    (by decide) (by decide)

/-- C10: the grouper's internal sort is the stable descending sort by
publication time: it permutes the batch, orders it by non-increasing
timestamp, and keeps articles with equal timestamps in their original
relative input order, so the clustering is a deterministic function of the
input list. -/
theorem sortByPublishedDesc_stable (articles : List ArticleInput) (ts : Int) :
    (sortByPublishedDesc articles).Perm articles ∧
    List.Pairwise (fun a b => b.publishedAt ≤ a.publishedAt)
      (sortByPublishedDesc articles) ∧
    (sortByPublishedDesc articles).filter
        (fun a => decide (a.publishedAt = ts)) =
      articles.filter (fun a => decide (a.publishedAt = ts)) := by
  refine ⟨List.mergeSort_perm articles _, ?_, ?_⟩
  · have h := List.sorted_mergeSort descLe_trans descLe_total articles
    exact h.imp (fun hab => of_decide_eq_true hab)
  · have hpw : (articles.filter (fun a => decide (a.publishedAt = ts))).Pairwise
        (fun a b => decide (b.publishedAt ≤ a.publishedAt) = true) := by
      apply List.pairwise_of_forall_mem_list
      intro a ha b hb
      rw [List.mem_filter] at ha hb
      have ha2 := of_decide_eq_true ha.2
      have hb2 := of_decide_eq_true hb.2
      simp [ha2, hb2]
    have h1 : List.Sublist
        (articles.filter (fun a => decide (a.publishedAt = ts)))
        (sortByPublishedDesc articles) :=
      List.sublist_mergeSort descLe_trans descLe_total hpw
        (List.filter_sublist articles)
    have h2 : List.Sublist
        ((articles.filter (fun a => decide (a.publishedAt = ts))).filter
          (fun a => decide (a.publishedAt = ts)))
        ((sortByPublishedDesc articles).filter
          (fun a => decide (a.publishedAt = ts))) :=
      h1.filter _
    have h3 : ((articles.filter (fun a => decide (a.publishedAt = ts))).filter
          (fun a => decide (a.publishedAt = ts))) =
        articles.filter (fun a => decide (a.publishedAt = ts)) := by
      simp [List.filter_filter]
    have h4 : (((sortByPublishedDesc articles)).filter
          (fun a => decide (a.publishedAt = ts))).Perm
        (articles.filter (fun a => decide (a.publishedAt = ts))) :=
      (List.mergeSort_perm articles _).filter _
    exact (List.Sublist.eq_of_length (h3 ▸ h2) h4.length_eq.symm).symm
